import Mathlib

/-!
Verification development for the attention / transformer notebook
(`Chapter08/transformer.ipynb`) and the siamese-network pair-construction
notebook of this repository.

Tensors are modelled as curried functions over `Fin`-indexed dimensions with
real-valued entries; the batch dimension (always 1 in the scenarios of
interest) is dropped, so a `[1, L, F]` tensor is `Fin L → Fin F → ℝ`.
Shape equalities of the spec are therefore type-level facts of the embedding.
PyTorch modules become structures holding their learned parameters, with a
`forward` function; dropout is modelled in inference mode (identity) except
where a claim is explicitly about training-mode dropout, in which case the
dropout module is an explicit function argument.
-/

/-- Batched matrix product restricted to one batch element:
`torch.matmul` on `[m, k] × [k, n]`. -/
noncomputable def matmul {m k n : ℕ} (A : Fin m → Fin k → ℝ) (B : Fin k → Fin n → ℝ) :
    Fin m → Fin n → ℝ :=
  fun i j => ∑ t, A i t * B t j

/-- Raw alignment scores of `attention`:
`torch.matmul(query, key.transpose(-2, -1)) / math.sqrt(d_k)` where
`d_k = query.size(-1)`. -/
noncomputable def rawScores {Lq Lk d : ℕ} (query : Fin Lq → Fin d → ℝ)
    (key : Fin Lk → Fin d → ℝ) : Fin Lq → Fin Lk → ℝ :=
  fun i j => (∑ t, query i t * key j t) / Real.sqrt (d : ℝ)

/-- Optional mask application of `attention`:
`scores.masked_fill(mask == 0, -1e9)` — positions where the mask is false are
replaced by the sentinel `-1e9`. -/
noncomputable def applyMask {Lq Lk : ℕ} (scores : Fin Lq → Fin Lk → ℝ)
    (mask : Option (Fin Lq → Fin Lk → Bool)) : Fin Lq → Fin Lk → ℝ :=
  match mask with
  | none => scores
  | some m => fun i j => if m i j then scores i j else (-1e9 : ℝ)

/-- Row-wise softmax, `torch.nn.functional.softmax(scores, dim=-1)` applied to
one row. -/
noncomputable def softmaxRow {n : ℕ} (s : Fin n → ℝ) : Fin n → ℝ :=
  fun j => Real.exp (s j) / ∑ u, Real.exp (s u)

/-- Scaled dot-product attention, the `attention` function of the notebook.
`dropout` is the optional dropout module, modelled as an arbitrary
transformation of the weight tensor (`none` is inference mode / no dropout).
Returns the pair `(torch.matmul(p_attn, value), p_attn)`. -/
noncomputable def attention {Lq Lk d dv : ℕ} (query : Fin Lq → Fin d → ℝ)
    (key : Fin Lk → Fin d → ℝ) (value : Fin Lk → Fin dv → ℝ)
    (mask : Option (Fin Lq → Fin Lk → Bool))
    (dropout : Option ((Fin Lq → Fin Lk → ℝ) → Fin Lq → Fin Lk → ℝ)) :
    (Fin Lq → Fin dv → ℝ) × (Fin Lq → Fin Lk → ℝ) :=
  let p_attn : Fin Lq → Fin Lk → ℝ :=
    fun i => softmaxRow (applyMask (rawScores query key) mask i)
  match dropout with
  | none => (matmul p_attn value, p_attn)
  | some D => (matmul (D p_attn) value, D p_attn)

/-- Maximum of a row, used only by the spec-side stable softmax below. -/
noncomputable def rowMax {n : ℕ} [Nonempty (Fin n)] (s : Fin n → ℝ) : ℝ :=
  Finset.univ.sup' Finset.univ_nonempty s

/-- Modelled from the spec: "row-wise normalization, numerically stable via
max-subtraction" — the max-subtraction form of softmax, to be compared with
the source's `softmaxRow`. -/
noncomputable def softmaxMaxSubSpec {n : ℕ} [Nonempty (Fin n)] (s : Fin n → ℝ) :
    Fin n → ℝ :=
  fun j => Real.exp (s j - rowMax s) / ∑ u, Real.exp (s u - rowMax s)

/-- Causal mask `RandomDataset.subsequent_mask`:
`np.triu(ones, k=1) == 0`, i.e. true at `(i, j)` iff not `i + 1 ≤ j`. -/
def subsequentMask (L : ℕ) : Fin L → Fin L → Bool :=
  fun i j => !(decide ((i : ℕ) + 1 ≤ (j : ℕ)))

/-- Positivity of a row sum of exponentials (nonempty row). -/
lemma sum_exp_pos {n : ℕ} [Nonempty (Fin n)] (s : Fin n → ℝ) :
    0 < ∑ u, Real.exp (s u) :=
  Finset.sum_pos (fun u _ => Real.exp_pos (s u)) Finset.univ_nonempty

/-- Every softmax weight is strictly positive. -/
lemma softmaxRow_pos {n : ℕ} [Nonempty (Fin n)] (s : Fin n → ℝ) (j : Fin n) :
    0 < softmaxRow s j :=
  div_pos (Real.exp_pos (s j)) (sum_exp_pos s)

/-- A softmax row sums to 1. -/
lemma softmaxRow_sum_one {n : ℕ} [Nonempty (Fin n)] (s : Fin n → ℝ) :
    ∑ j, softmaxRow s j = 1 := by
  unfold softmaxRow
  rw [← Finset.sum_div]
  exact div_self (ne_of_gt (sum_exp_pos s))

/-- Shift invariance: the plain softmax equals the max-subtraction form. -/
lemma softmaxRow_eq_maxsub {n : ℕ} [Nonempty (Fin n)] (s : Fin n → ℝ) :
    softmaxRow s = softmaxMaxSubSpec s := by
  funext j
  unfold softmaxRow softmaxMaxSubSpec
  have hsum : (∑ u, Real.exp (s u - rowMax s))
      = (∑ u, Real.exp (s u)) / Real.exp (rowMax s) := by
    rw [Finset.sum_div]
    exact Finset.sum_congr rfl (fun u _ => Real.exp_sub (s u) (rowMax s))
  rw [hsum, Real.exp_sub]
  have hM : Real.exp (rowMax s) ≠ 0 := Real.exp_ne_zero _
  have hS : (∑ u, Real.exp (s u)) ≠ 0 := ne_of_gt (sum_exp_pos s)
  field_simp

/-- A log-softmax row exponentiates to a probability distribution. -/
lemma sum_exp_logSoftmax {n : ℕ} [Nonempty (Fin n)] (s : Fin n → ℝ) :
    ∑ v, Real.exp (s v - Real.log (∑ u, Real.exp (s u))) = 1 := by
  have hS : (0 : ℝ) < ∑ u, Real.exp (s u) := sum_exp_pos s
  calc ∑ v, Real.exp (s v - Real.log (∑ u, Real.exp (s u)))
      = ∑ v, Real.exp (s v) / Real.exp (Real.log (∑ u, Real.exp (s u))) := by
        exact Finset.sum_congr rfl (fun v _ => Real.exp_sub _ _)
    _ = (∑ v, Real.exp (s v)) / (∑ u, Real.exp (s u)) := by
        rw [← Finset.sum_div, Real.exp_log hS]
    _ = 1 := div_self (ne_of_gt hS)

/-- C1: with no mask and no dropout, every row of the weight tensor returned
by `attention` (its second component) sums to exactly 1: each row is a
probability distribution over the (nonempty) key dimension. -/
theorem C1_unmasked_attention_rows_sum_one {Lq nk d dv : ℕ}
    (q : Fin Lq → Fin d → ℝ) (k : Fin (nk + 1) → Fin d → ℝ)
    (v : Fin (nk + 1) → Fin dv → ℝ) (i : Fin Lq) :
    ∑ j, (attention q k v none none).2 i j = 1 := by
  simp only [attention]
  exact softmaxRow_sum_one _

/-- C2: `attention` computes raw scores as `Q Kᵀ / sqrt d_k`, replaces
mask-false positions with `-1e9`, normalizes each row with a softmax equal to
the numerically stable max-subtraction form, and returns the pair of the
weighted sum of values under those weights and the weight tensor itself. -/
theorem C2_attention_contract {Lq nk d dv : ℕ}
    (q : Fin Lq → Fin d → ℝ) (k : Fin (nk + 1) → Fin d → ℝ)
    (v : Fin (nk + 1) → Fin dv → ℝ) (m : Fin Lq → Fin (nk + 1) → Bool) :
    (attention q k v (some m) none).1
        = matmul (fun i => softmaxRow (applyMask (rawScores q k) (some m) i)) v
    ∧ ((attention q k v (some m) none).2
        = fun i => softmaxRow (applyMask (rawScores q k) (some m) i))
    ∧ (∀ i, softmaxRow (applyMask (rawScores q k) (some m) i)
        = softmaxMaxSubSpec (applyMask (rawScores q k) (some m) i))
    ∧ (rawScores q k
        = fun i j => (∑ t, q i t * k j t) / Real.sqrt (d : ℝ))
    ∧ (applyMask (rawScores q k) (some m)
        = fun i j => if m i j then rawScores q k i j else (-1e9 : ℝ)) := by
  refine ⟨rfl, rfl, fun i => softmaxRow_eq_maxsub _, rfl, rfl⟩

/-- C8: for a fully unmasked, no-dropout attention call with query, key and
value all equal to one single vector (sequence length 1), the output equals
that vector. -/
theorem C8_degenerate_self_attention {d : ℕ} (v : Fin 1 → Fin d → ℝ) :
    (attention v v v none none).1 = v := by
  funext i f
  simp [attention, matmul, softmaxRow, Fin.sum_univ_one, Subsingleton.elim i 0]

/-- Concrete zero inputs used by the C3 counterexample: a length-2 sequence of
one-dimensional zero vectors. -/
noncomputable def zeroQKV : Fin 2 → Fin 1 → ℝ := fun _ _ => 0

/-- C3 counterexample: under the causal mask `subsequentMask`, the pre-dropout
attention weight at position (0, 1) on zero inputs is NOT exactly zero (it is
`exp (-1e9) / (exp 0 + exp (-1e9))`, strictly positive), refuting "exactly
zero at every position (i, j) with j > i". -/
theorem C3_counterexample :
    (attention zeroQKV zeroQKV zeroQKV (some (subsequentMask 2)) none).2 0 1 ≠ 0 := by
  have h : 0 < (attention zeroQKV zeroQKV zeroQKV (some (subsequentMask 2)) none).2 0 1 := by
    simp only [attention]
    exact softmaxRow_pos _ 1
  exact ne_of_gt h

/-- C3 (amended): under the causal mask, the pre-dropout weight at (i, j) with
j > i is strictly positive — not exactly zero — but astronomically small:
it is bounded above by `exp (-1e9 - s_ii)` where `s_ii` is the (unmasked)
scaled diagonal score of row i. -/
theorem C3_causal_mask_weight_tiny {L d : ℕ}
    (q k : Fin L → Fin d → ℝ) (v : Fin L → Fin d → ℝ) (i j : Fin L)
    (hij : (i : ℕ) < (j : ℕ)) :
    0 < (attention q k v (some (subsequentMask L)) none).2 i j
    ∧ (attention q k v (some (subsequentMask L)) none).2 i j
        ≤ Real.exp (-1e9 - rawScores q k i i) := by
  haveI : Nonempty (Fin L) := ⟨i⟩
  have hmaskij : subsequentMask L i j = false := by
    simp only [subsequentMask, Bool.not_eq_false', decide_eq_true_eq]
    omega
  have hmaskii : subsequentMask L i i = true := by
    simp only [subsequentMask, Bool.not_eq_true', decide_eq_false_iff_not]
    omega
  have hterm : Real.exp (applyMask (rawScores q k) (some (subsequentMask L)) i i)
      ≤ ∑ u, Real.exp (applyMask (rawScores q k) (some (subsequentMask L)) i u) :=
    Finset.single_le_sum (fun u _ => le_of_lt (Real.exp_pos _)) (Finset.mem_univ i)
  have hii : applyMask (rawScores q k) (some (subsequentMask L)) i i
      = rawScores q k i i := by
    simp [applyMask, hmaskii]
  rw [hii] at hterm
  have hij' : applyMask (rawScores q k) (some (subsequentMask L)) i j
      = (-1e9 : ℝ) := by
    simp [applyMask, hmaskij]
  have h2 : (attention q k v (some (subsequentMask L)) none).2 i j
      = Real.exp (applyMask (rawScores q k) (some (subsequentMask L)) i j)
        / ∑ u, Real.exp (applyMask (rawScores q k) (some (subsequentMask L)) i u) := rfl
  constructor
  · simp only [attention]
    exact softmaxRow_pos _ j
  · rw [h2, hij']
    calc Real.exp (-1e9)
          / ∑ u, Real.exp (applyMask (rawScores q k) (some (subsequentMask L)) i u)
        ≤ Real.exp (-1e9) / Real.exp (rawScores q k i i) := by
          gcongr
      _ = Real.exp (-1e9 - rawScores q k i i) := (Real.exp_sub _ _).symm

/-- C3 witness: the amended bound instantiated at the concrete zero inputs of
the counterexample, position (0, 1). -/
theorem C3_causal_mask_weight_tiny_witness :
    ((0 : Fin 2) : ℕ) < ((1 : Fin 2) : ℕ)
    ∧ (0 < (attention zeroQKV zeroQKV zeroQKV (some (subsequentMask 2)) none).2 0 1
       ∧ (attention zeroQKV zeroQKV zeroQKV (some (subsequentMask 2)) none).2 0 1
           ≤ Real.exp (-1e9 - rawScores zeroQKV zeroQKV 0 0)) :=
  ⟨by decide, C3_causal_mask_weight_tiny zeroQKV zeroQKV zeroQKV 0 1 (by decide)⟩

/-- Construction-time configuration check of `MultiHeadedAttention.__init__`:
the constructor runs `assert d_model % h == 0` and then sets
`self.d_k = d_model // h` and `self.h = h`. `none` models the
`AssertionError`; `some (d_k, h)` models a successful construction. -/
def mhaInit (h d_model : ℕ) : Option (ℕ × ℕ) :=
  if d_model % h = 0 then some (d_model / h, h) else none

/-- C4: constructing `MultiHeadedAttention` with head count h > 0 and model
dimension d_model fails at construction time iff d_model is not evenly
divisible by h; when divisible it succeeds with per-head dimension
`d_k = d_model / h`. -/
theorem C4_mha_init_divisibility (h d_model : ℕ) (_hh : 0 < h) :
    (mhaInit h d_model = none ↔ ¬ (h ∣ d_model))
    ∧ (h ∣ d_model → mhaInit h d_model = some (d_model / h, h)) := by
  constructor
  · constructor
    · intro hnone hdvd
      have hmod : d_model % h = 0 := Nat.dvd_iff_mod_eq_zero.mp hdvd
      simp [mhaInit, hmod] at hnone
    · intro hndvd
      have hmod : d_model % h ≠ 0 := fun hmod =>
        hndvd (Nat.dvd_iff_mod_eq_zero.mpr hmod)
      simp [mhaInit, hmod]
  · intro hdvd
    have hmod : d_model % h = 0 := Nat.dvd_iff_mod_eq_zero.mp hdvd
    simp [mhaInit, hmod]

/-- C4 witness: h = 2, d_model = 8 is a successful construction with
d_k = 4. -/
theorem C4_mha_init_divisibility_witness :
    0 < 2 ∧ mhaInit 2 8 = some (4, 2) :=
  ⟨by decide, (C4_mha_init_divisibility 2 8 (by decide)).2 (by decide)⟩

/-- Mean over the feature (last) dimension: `x.mean(-1, keepdim=True)` on one
row. -/
noncomputable def rowMean {F : ℕ} (x : Fin F → ℝ) : ℝ :=
  (∑ f, x f) / (F : ℝ)

/-- Standard deviation over the feature (last) dimension:
`x.std(-1, keepdim=True)` on one row — torch's default unbiased estimator,
dividing by `F - 1`. -/
noncomputable def rowStd {F : ℕ} (x : Fin F → ℝ) : ℝ :=
  Real.sqrt ((∑ f, (x f - rowMean x) ^ 2) / ((F : ℝ) - 1))

/-- The normalized value of `LayerNorm.forward` before the learned scale and
shift: `(x - mean) / (std + eps)` on one row. -/
noncomputable def normalizedRow {F : ℕ} (eps : ℝ) (x : Fin F → ℝ) : Fin F → ℝ :=
  fun f => (x f - rowMean x) / (rowStd x + eps)

/-- Learned parameters of `LayerNorm`: `a_2` (scale, initialized to ones),
`b_2` (shift, initialized to zeros) and the constructor argument `eps`
(default 1e-6). -/
structure LayerNormM (F : ℕ) where
  a_2 : Fin F → ℝ
  b_2 : Fin F → ℝ
  eps : ℝ

/-- `LayerNorm.forward`:
`self.a_2 * (x - mean) / (std + self.eps) + self.b_2`, with mean and std over
the last (feature) dimension and eps added to the standard deviation itself. -/
noncomputable def LayerNormM.forward {F L : ℕ} (ln : LayerNormM F)
    (x : Fin L → Fin F → ℝ) : Fin L → Fin F → ℝ :=
  fun p f => ln.a_2 f * (x p f - rowMean (x p)) / (rowStd (x p) + ln.eps) + ln.b_2 f

/-- `SublayerConnection`: holds its own `LayerNorm` instance; the dropout
module is passed to `forward` as an explicit function (identity in inference
mode). -/
structure SublayerConnectionM (F : ℕ) where
  norm : LayerNormM F

/-- `SublayerConnection.forward`:
`x + self.dropout(sublayer(self.norm(x)))`. -/
noncomputable def SublayerConnectionM.forward {F L : ℕ} (sc : SublayerConnectionM F)
    (drop : (Fin L → Fin F → ℝ) → Fin L → Fin F → ℝ)
    (x : Fin L → Fin F → ℝ)
    (sublayer : (Fin L → Fin F → ℝ) → Fin L → Fin F → ℝ) :
    Fin L → Fin F → ℝ :=
  fun p f => x p f + drop (sublayer (sc.norm.forward x)) p f

/-- C5: `SublayerConnection.forward x sublayer` returns
`x + dropout (sublayer (norm x))`: the input is layer-normalized (with the
wrapper's own LayerNorm, spelled out) before the inner transform, and the
residual addition uses the original unnormalized `x`. The output shape always
equals the input shape: in this embedding `forward` maps
`Fin L → Fin F → ℝ` to `Fin L → Fin F → ℝ`, so shape preservation is
type-level. -/
theorem C5_sublayer_residual_prenorm {F L : ℕ} (sc : SublayerConnectionM F)
    (drop : (Fin L → Fin F → ℝ) → Fin L → Fin F → ℝ)
    (x : Fin L → Fin F → ℝ)
    (sublayer : (Fin L → Fin F → ℝ) → Fin L → Fin F → ℝ) :
    (sc.forward drop x sublayer
        = fun p f => x p f + drop (sublayer (sc.norm.forward x)) p f)
    ∧ (sc.norm.forward x
        = fun p f => sc.norm.a_2 f * (x p f - rowMean (x p))
            / (rowStd (x p) + sc.norm.eps) + sc.norm.b_2 f) :=
  ⟨rfl, rfl⟩

/-- The row of centered values sums to zero. -/
lemma sum_sub_rowMean {F : ℕ} (x : Fin F → ℝ) :
    (∑ f, (x f - rowMean x)) = 0 := by
  rcases Nat.eq_zero_or_pos F with hF | hF
  · subst hF
    simp
  · have hFne : ((F : ℝ)) ≠ 0 := by
      exact_mod_cast Nat.pos_iff_ne_zero.mp hF
    rw [Finset.sum_sub_distrib]
    simp only [rowMean, Finset.sum_const, Finset.card_univ, Fintype.card_fin,
      nsmul_eq_mul]
    field_simp

/-- The unbiased-variance expression of `rowStd` is nonnegative: for rows of
length 0 or 1 the numerator vanishes, and for length at least 2 the
denominator is positive. -/
lemma rowVar_nonneg {F : ℕ} (x : Fin F → ℝ) :
    0 ≤ (∑ f, (x f - rowMean x) ^ 2) / ((F : ℝ) - 1) := by
  match F with
  | 0 => simp
  | 1 =>
    have h1 : rowMean x = x 0 := by
      simp [rowMean]
    simp [Fin.sum_univ_one, h1]
  | (n + 2) =>
    apply div_nonneg (Finset.sum_nonneg (fun f _ => sq_nonneg _))
    have : (1 : ℝ) ≤ ((n + 2 : ℕ) : ℝ) := by
      exact_mod_cast Nat.one_le_iff_ne_zero.mpr (by omega)
    linarith

/-- The normalized row has mean exactly zero. -/
lemma rowMean_normalizedRow {F : ℕ} (eps : ℝ) (x : Fin F → ℝ) :
    rowMean (normalizedRow eps x) = 0 := by
  unfold rowMean normalizedRow
  rw [← Finset.sum_div, sum_sub_rowMean]
  simp

/-- Standard deviation of the normalized row: `std / (std + eps)` whenever
`std + eps` is positive. -/
lemma rowStd_normalizedRow {F : ℕ} {eps : ℝ} (x : Fin F → ℝ)
    (ht : 0 < rowStd x + eps) :
    rowStd (normalizedRow eps x) = rowStd x / (rowStd x + eps) := by
  have hmean := rowMean_normalizedRow eps x
  have hsq : (∑ f, (normalizedRow eps x f - rowMean (normalizedRow eps x)) ^ 2)
      = (∑ f, (x f - rowMean x) ^ 2) / (rowStd x + eps) ^ 2 := by
    rw [hmean, Finset.sum_div]
    refine Finset.sum_congr rfl (fun f _ => ?_)
    rw [sub_zero]
    unfold normalizedRow
    rw [div_pow]
  have hnn : 0 ≤ (∑ f, (x f - rowMean x) ^ 2) / ((F : ℝ) - 1) := rowVar_nonneg x
  have key : (∑ f, (normalizedRow eps x f - rowMean (normalizedRow eps x)) ^ 2)
        / ((F : ℝ) - 1)
      = ((∑ f, (x f - rowMean x) ^ 2) / ((F : ℝ) - 1)) / (rowStd x + eps) ^ 2 := by
    rw [hsq]
    ring
  calc rowStd (normalizedRow eps x)
      = Real.sqrt (((∑ f, (x f - rowMean x) ^ 2) / ((F : ℝ) - 1))
          / (rowStd x + eps) ^ 2) := by rw [rowStd, key]
    _ = Real.sqrt ((∑ f, (x f - rowMean x) ^ 2) / ((F : ℝ) - 1))
          / Real.sqrt ((rowStd x + eps) ^ 2) := Real.sqrt_div hnn _
    _ = rowStd x / (rowStd x + eps) := by
        rw [Real.sqrt_sq (le_of_lt ht)]
        rfl

/-- Constant row used by the C6 counterexample. -/
noncomputable def constRow : Fin 2 → ℝ := fun _ => 1

/-- C6 counterexample: for the constant input row `[1, 1]` the normalized
value `(x - mean) / (std + eps)` (with the source's default eps = 1e-6) is the
zero row, whose standard deviation is 0, not approximately 1: the claim's
"per-position standard deviation approximately 1 for every input" fails. -/
theorem C6_counterexample :
    ¬ (|rowStd (normalizedRow (1e-6) constRow) - 1| ≤ 1e-5) := by
  have h0 : normalizedRow (1e-6) constRow = fun _ => 0 := by
    funext f
    simp [normalizedRow, constRow, rowMean, Fin.sum_univ_two]
  rw [h0]
  have h1 : rowStd (fun _ : Fin 2 => (0 : ℝ)) = 0 := by
    simp [rowStd, rowMean, Fin.sum_univ_two]
  rw [h1]
  norm_num

/-- C6 (amended): `LayerNorm.forward` returns exactly
`a_2 * (x - mean) / (std + eps) + b_2` with mean and (unbiased) standard
deviation over the feature dimension and eps added to the standard deviation
itself; the pre-scale normalized value has mean exactly 0; and — with the
source's default eps = 1e-6 — its standard deviation is within 1e-5 of 1
provided the row's standard deviation is at least 0.1 (for constant rows it
is 0, see the counterexample). -/
theorem C6_layer_norm_stats {F L : ℕ} (ln : LayerNormM F)
    (x : Fin L → Fin F → ℝ) (p : Fin L) (f : Fin F) :
    (ln.forward x p f = ln.a_2 f * normalizedRow ln.eps (x p) f + ln.b_2 f)
    ∧ rowMean (normalizedRow ln.eps (x p)) = 0
    ∧ (ln.eps = 1e-6 → 0.1 ≤ rowStd (x p) →
        |rowStd (normalizedRow ln.eps (x p)) - 1| ≤ 1e-5) := by
  refine ⟨?_, rowMean_normalizedRow _ _, ?_⟩
  · unfold LayerNormM.forward normalizedRow
    rw [mul_div_assoc]
  · intro heps hs
    rw [heps] at *
    set s := rowStd (x p) with hsdef
    have ht : 0 < s + 1e-6 := by
      norm_num
      linarith
    rw [rowStd_normalizedRow (x p) ht]
    have hdiff : s / (s + 1e-6) - 1 = -((1e-6 : ℝ) / (s + 1e-6)) := by
      field_simp
    rw [hdiff, abs_neg, abs_of_nonneg (div_nonneg (by norm_num) (le_of_lt ht))]
    rw [div_le_iff₀ ht]
    nlinarith

/-- Nonconstant row used by the C6 witness. -/
noncomputable def spreadRow : Fin 2 → ℝ := ![0, 2]

/-- Parameter instance (scale 1, shift 0, default eps) used by the C6
witness. -/
noncomputable def lnDefault : LayerNormM 2 := ⟨fun _ => 1, fun _ => 0, 1e-6⟩

/-- C6 witness: the row `[0, 2]` has standard deviation `sqrt 2 ≥ 0.1`, and
its normalized row's standard deviation is within 1e-5 of 1. -/
theorem C6_layer_norm_stats_witness :
    (0.1 : ℝ) ≤ rowStd spreadRow
    ∧ |rowStd (normalizedRow (1e-6) spreadRow) - 1| ≤ 1e-5 := by
  have hw : (0.1 : ℝ) ≤ rowStd spreadRow := by
    have h2 : rowStd spreadRow = Real.sqrt 2 := by
      simp [rowStd, rowMean, spreadRow, Fin.sum_univ_two]
      norm_num
    rw [h2]
    nlinarith [Real.sq_sqrt (by norm_num : (0:ℝ) ≤ 2), Real.sqrt_nonneg 2]
  exact ⟨hw, (C6_layer_norm_stats lnDefault (fun _ : Fin 1 => spreadRow) 0 0).2.2
    rfl hw⟩

/-- A `Fin (h * dk)` index forces the per-head dimension to be positive. -/
lemma dk_pos_of_mem {h dk : ℕ} (g : Fin (h * dk)) : 0 < dk := by
  rcases Nat.eq_zero_or_pos dk with h0 | h0
  · exfalso
    subst h0
    have hg := g.2
    omega
  · exact h0

/-- Index into the flat `d_model = h * d_k` feature axis for head `hd`,
feature `f`: the reshape `view(batch, -1, h, d_k).transpose(1, 2)` of
`MultiHeadedAttention.forward`. -/
def headIdx {h dk : ℕ} (hd : Fin h) (f : Fin dk) : Fin (h * dk) :=
  ⟨hd.1 * dk + f.1, by
    have hf := f.2
    have hh : hd.1 + 1 ≤ h := hd.2
    calc hd.1 * dk + f.1 < hd.1 * dk + dk := by omega
      _ = (hd.1 + 1) * dk := by ring
      _ ≤ h * dk := mul_le_mul_right' hh dk⟩

/-- Head number of a flat feature index (inverse reshape,
`transpose(1, 2).contiguous().view(batch, -1, h * d_k)`). -/
def headOf {h dk : ℕ} (g : Fin (h * dk)) : Fin h :=
  ⟨g.1 / dk, (Nat.div_lt_iff_lt_mul (dk_pos_of_mem g)).mpr g.2⟩

/-- Within-head feature number of a flat feature index. -/
def featOf {h dk : ℕ} (g : Fin (h * dk)) : Fin dk :=
  ⟨g.1 % dk, Nat.mod_lt _ (dk_pos_of_mem g)⟩

/-- `torch.nn.Linear(inF, outF)`: learned weight and bias,
`y = x Wᵀ + b`. -/
structure LinearM (inF outF : ℕ) where
  weight : Fin outF → Fin inF → ℝ
  bias : Fin outF → ℝ

/-- Forward pass of `torch.nn.Linear` applied position-wise. -/
noncomputable def LinearM.forward {inF outF L : ℕ} (l : LinearM inF outF)
    (x : Fin L → Fin inF → ℝ) : Fin L → Fin outF → ℝ :=
  fun p o => (∑ i, l.weight o i * x p i) + l.bias o

/-- `MultiHeadedAttention` after a successful construction: `h` heads of
dimension `d_k`, with `d_model = h * d_k`, and the four cloned linear layers
(`fc_layers`: query, key, value projections and the output projection). -/
structure MHAM (h dk : ℕ) where
  fcQ : LinearM (h * dk) (h * dk)
  fcK : LinearM (h * dk) (h * dk)
  fcV : LinearM (h * dk) (h * dk)
  fcOut : LinearM (h * dk) (h * dk)

/-- `MultiHeadedAttention.forward`: project query/key/value, split into `h`
heads of width `d_k`, run `attention` per head under the shared mask
(`mask.unsqueeze(1)` broadcasts one mask to all heads), concatenate the head
outputs and apply the output projection. Returns the projected output paired
with the per-head weight tensor that the module stores in `self.attn`.
`drop` is the module's dropout, passed through to `attention` (`none` models
inference mode, where `torch.nn.Dropout` is the identity). -/
noncomputable def MHAM.forward {h dk Lq Lk : ℕ} (m : MHAM h dk)
    (query : Fin Lq → Fin (h * dk) → ℝ) (key value : Fin Lk → Fin (h * dk) → ℝ)
    (mask : Option (Fin Lq → Fin Lk → Bool))
    (drop : Option ((Fin Lq → Fin Lk → ℝ) → Fin Lq → Fin Lk → ℝ)) :
    (Fin Lq → Fin (h * dk) → ℝ) × (Fin h → Fin Lq → Fin Lk → ℝ) :=
  let pq := m.fcQ.forward query
  let pk := m.fcK.forward key
  let pv := m.fcV.forward value
  let res := fun hd : Fin h =>
    attention (fun p f => pq p (headIdx hd f)) (fun p f => pk p (headIdx hd f))
      (fun p f => pv p (headIdx hd f)) mask drop
  let xcat : Fin Lq → Fin (h * dk) → ℝ := fun p g => (res (headOf g)).1 p (featOf g)
  (m.fcOut.forward xcat, fun hd => (res hd).2)

/-- `PositionwiseFFN`: two linear layers with a ReLU (and, in training,
dropout) between them. -/
structure PositionwiseFFNM (D dff : ℕ) where
  w_1 : LinearM D dff
  w_2 : LinearM dff D

/-- `PositionwiseFFN.forward` in inference mode:
`w_2(relu(w_1(x)))` with `relu y = max y 0`. -/
noncomputable def PositionwiseFFNM.forward {D dff L : ℕ} (m : PositionwiseFFNM D dff)
    (x : Fin L → Fin D → ℝ) : Fin L → Fin D → ℝ :=
  m.w_2.forward (fun p o => max (m.w_1.forward x p o) 0)

/-- `Embeddings`: token lookup table scaled by `sqrt d_model`. -/
structure EmbeddingsM (V D : ℕ) where
  lut : Fin V → Fin D → ℝ

/-- `Embeddings.forward`: `self.lut(x) * math.sqrt(self.d_model)`. -/
noncomputable def EmbeddingsM.forward {V D L : ℕ} (e : EmbeddingsM V D)
    (tokens : Fin L → Fin V) : Fin L → Fin D → ℝ :=
  fun p f => e.lut (tokens p) f * Real.sqrt (D : ℝ)

/-- The sinusoidal table of `PositionalEncoding`: feature `2i` carries
`sin(pos * exp(-(2i * log 10000) / d_model))` and feature `2i + 1` the
corresponding cosine. -/
noncomputable def peTable (D pos : ℕ) (f : Fin D) : ℝ :=
  let dt := Real.exp (-(((2 * ((f : ℕ) / 2) : ℕ) : ℝ) * Real.log 10000) / (D : ℝ))
  if (f : ℕ) % 2 = 0 then Real.sin ((pos : ℝ) * dt) else Real.cos ((pos : ℝ) * dt)

/-- `PositionalEncoding.forward` in inference mode: add the precomputed table
sliced to the sequence length. -/
noncomputable def positionalEncode {D L : ℕ} (x : Fin L → Fin D → ℝ) :
    Fin L → Fin D → ℝ :=
  fun p f => x p f + peTable D (p : ℕ) f

/-- `EncoderBlock`: self-attention and feed-forward, each wrapped in its own
`SublayerConnection` (the two clones). -/
structure EncoderBlockM (h dk dff : ℕ) where
  self_attn : MHAM h dk
  ffn : PositionwiseFFNM (h * dk) dff
  sub0 : SublayerConnectionM (h * dk)
  sub1 : SublayerConnectionM (h * dk)

/-- `EncoderBlock.forward` in inference mode (sublayer dropout is the
identity). -/
noncomputable def EncoderBlockM.forward {h dk dff L : ℕ} (b : EncoderBlockM h dk dff)
    (x : Fin L → Fin (h * dk) → ℝ) (mask : Option (Fin L → Fin L → Bool)) :
    Fin L → Fin (h * dk) → ℝ :=
  let x1 := b.sub0.forward id x (fun y => (b.self_attn.forward y y y mask none).1)
  b.sub1.forward id x1 (fun y => b.ffn.forward y)

/-- `Encoder`: `N` stacked blocks followed by a final `LayerNorm`. -/
structure EncoderM (h dk dff : ℕ) where
  blocks : List (EncoderBlockM h dk dff)
  norm : LayerNormM (h * dk)

/-- `Encoder.forward`: iterate over all blocks, then normalize. -/
noncomputable def EncoderM.forward {h dk dff L : ℕ} (e : EncoderM h dk dff)
    (x : Fin L → Fin (h * dk) → ℝ) (mask : Option (Fin L → Fin L → Bool)) :
    Fin L → Fin (h * dk) → ℝ :=
  e.norm.forward (e.blocks.foldl (fun acc blk => blk.forward acc mask) x)

/-- `DecoderBlock`: masked self-attention, encoder (cross) attention and
feed-forward, each wrapped in its own `SublayerConnection` (the three
clones). -/
structure DecoderBlockM (h dk dff : ℕ) where
  self_attn : MHAM h dk
  encoder_attn : MHAM h dk
  ffn : PositionwiseFFNM (h * dk) dff
  sub0 : SublayerConnectionM (h * dk)
  sub1 : SublayerConnectionM (h * dk)
  sub2 : SublayerConnectionM (h * dk)

/-- `DecoderBlock.forward` in inference mode. -/
noncomputable def DecoderBlockM.forward {h dk dff Ls Lt : ℕ} (b : DecoderBlockM h dk dff)
    (x : Fin Lt → Fin (h * dk) → ℝ) (encoder_states : Fin Ls → Fin (h * dk) → ℝ)
    (source_mask : Option (Fin Lt → Fin Ls → Bool))
    (target_mask : Option (Fin Lt → Fin Lt → Bool)) : Fin Lt → Fin (h * dk) → ℝ :=
  let x1 := b.sub0.forward id x (fun y => (b.self_attn.forward y y y target_mask none).1)
  let x2 := b.sub1.forward id x1
    (fun y => (b.encoder_attn.forward y encoder_states encoder_states source_mask none).1)
  b.sub2.forward id x2 (fun y => b.ffn.forward y)

/-- Row-wise log-softmax,
`torch.nn.functional.log_softmax(scores, dim=-1)` on one row. -/
noncomputable def logSoftmaxRow {n : ℕ} (s : Fin n → ℝ) : Fin n → ℝ :=
  fun v => s v - Real.log (∑ u, Real.exp (s u))

/-- `Decoder`: `N` stacked blocks, final `LayerNorm` and the projection to
vocabulary-sized logits. -/
structure DecoderM (h dk dff V : ℕ) where
  blocks : List (DecoderBlockM h dk dff)
  norm : LayerNormM (h * dk)
  projection : LinearM (h * dk) V

/-- `Decoder.forward`: iterate over all blocks, normalize, project and apply
`log_softmax` over the vocabulary axis. -/
noncomputable def DecoderM.forward {h dk dff V Ls Lt : ℕ} (d : DecoderM h dk dff V)
    (x : Fin Lt → Fin (h * dk) → ℝ) (encoder_states : Fin Ls → Fin (h * dk) → ℝ)
    (source_mask : Option (Fin Lt → Fin Ls → Bool))
    (target_mask : Option (Fin Lt → Fin Lt → Bool)) : Fin Lt → Fin V → ℝ :=
  let y := d.blocks.foldl
    (fun acc blk => blk.forward acc encoder_states source_mask target_mask) x
  fun p => logSoftmaxRow (d.projection.forward (d.norm.forward y) p)

/-- `EncoderDecoder`: the full model; the source/target embedding pipelines
are `Sequential(Embeddings, PositionalEncoding)`. The source mask is a
per-key-position padding mask of shape `[1, Ls]`, broadcast over the query
dimension wherever it is used. -/
structure EncoderDecoderM (h dk dff Vs Vt : ℕ) where
  encoder : EncoderM h dk dff
  decoder : DecoderM h dk dff Vt
  source_embeddings : EmbeddingsM Vs (h * dk)
  target_embeddings : EmbeddingsM Vt (h * dk)

/-- `EncoderDecoder.forward`: embed and encode the source, then run the
decoder on the embedded target conditioned on the encoder states and both
masks. -/
noncomputable def EncoderDecoderM.forward {h dk dff Vs Vt Ls Lt : ℕ}
    (m : EncoderDecoderM h dk dff Vs Vt) (source : Fin Ls → Fin Vs)
    (target : Fin Lt → Fin Vt) (source_mask : Option (Fin Ls → Bool))
    (target_mask : Option (Fin Lt → Fin Lt → Bool)) : Fin Lt → Fin Vt → ℝ :=
  let encoder_output := m.encoder.forward
    (positionalEncode (m.source_embeddings.forward source))
    (source_mask.map (fun sm => fun _ j => sm j))
  m.decoder.forward (positionalEncode (m.target_embeddings.forward target))
    encoder_output (source_mask.map (fun sm => fun _ j => sm j)) target_mask

/-- C7: an encoder-decoder with d_model = 8, h = 2 (so d_k = 4), N = 1,
d_ff = 16 over a vocabulary of size 5, fed source [1,2,3,4] and target
[1,2,3] with all-true masks, returns — for any parameter values — a tensor of
(type-level) shape [1, 3, 5] in which every row along the vocabulary axis is
a valid log-probability distribution: the exponentials of each row sum to 1,
because the decoder ends in a projection followed by log-softmax. -/
theorem C7_end_to_end_log_prob
    (eb : EncoderBlockM 2 4 16) (db : DecoderBlockM 2 4 16)
    (enorm dnorm : LayerNormM (2 * 4)) (proj : LinearM (2 * 4) 5)
    (semb temb : EmbeddingsM 5 (2 * 4)) (t : Fin 3) :
    ∑ v : Fin 5, Real.exp
      ((EncoderDecoderM.forward ⟨⟨[eb], enorm⟩, ⟨[db], dnorm, proj⟩, semb, temb⟩
        (![1, 2, 3, 4]) (![1, 2, 3])
        (some (fun _ => true)) (some (fun _ _ => true))) t v) = 1 :=
  sum_exp_logSoftmax _

/-- Single-position, single-feature zero input used by C9. -/
noncomputable def singleZero : Fin 1 → Fin 1 → ℝ := fun _ _ => 0

/-- C9: the weight tensor `attention` returns as its second component — and
that `MultiHeadedAttention.forward` stores per head in `self.attn` — is the
tensor AFTER dropout (the same tensor used to weight the values), not the
pre-dropout softmax weights; consequently, under a training-mode dropout
(here, one that zeroes the weights, which a Bernoulli dropout can do), the
returned row sums are not 1. -/
theorem C9_returned_weights_are_post_dropout :
    (∀ (Lq Lk d dv : ℕ) (q : Fin Lq → Fin d → ℝ) (k : Fin Lk → Fin d → ℝ)
        (v : Fin Lk → Fin dv → ℝ) (mask : Option (Fin Lq → Fin Lk → Bool))
        (D : (Fin Lq → Fin Lk → ℝ) → Fin Lq → Fin Lk → ℝ),
      ((attention q k v mask (some D)).2
          = D (fun i => softmaxRow (applyMask (rawScores q k) mask i)))
      ∧ (attention q k v mask (some D)).1
          = matmul ((attention q k v mask (some D)).2) v)
    ∧ (∀ (h dk Lq Lk : ℕ) (m : MHAM h dk) (query : Fin Lq → Fin (h * dk) → ℝ)
        (key value : Fin Lk → Fin (h * dk) → ℝ)
        (mask : Option (Fin Lq → Fin Lk → Bool))
        (D : (Fin Lq → Fin Lk → ℝ) → Fin Lq → Fin Lk → ℝ) (hd : Fin h),
      (MHAM.forward m query key value mask (some D)).2 hd
        = (attention (fun p f => m.fcQ.forward query p (headIdx hd f))
            (fun p f => m.fcK.forward key p (headIdx hd f))
            (fun p f => m.fcV.forward value p (headIdx hd f)) mask (some D)).2)
    ∧ ((∑ j : Fin 1,
          (attention singleZero singleZero singleZero none
            (some (fun _ _ _ => 0))).2 0 j) = 0
      ∧ (0 : ℝ) ≠ 1) := by
  refine ⟨fun Lq Lk d dv q k v mask D => ⟨rfl, rfl⟩,
    fun h dk Lq Lk m query key value mask D hd => rfl, ?_, by norm_num⟩
  simp [attention]

/-- Indices at which `labels` equals `d`:
`np.where(labels == d)[0]` (in increasing order). -/
def digitIndices (labels : List ℕ) (d : ℕ) : List ℕ :=
  (List.range labels.length).filter (fun i => decide (labels.getD i 0 = d))

/-- Minimum of a list of naturals, `min(list)` (0 on the empty list, which
Python would reject; all uses are on nonempty lists). -/
def minList : List ℕ → ℕ
  | [] => 0
  | x :: xs => xs.foldl min x

/-- The per-class pair count of `create_pairs`:
`n = min([len(digit_indices[d]) for d in range(num_classes)]) - 1`. -/
def pairsN (labels : List ℕ) : ℕ :=
  minList ((List.range 10).map (fun d => (digitIndices labels d).length)) - 1

/-- The pairs list built by `create_pairs`: for each class `d` and each
`i < n`, one positive pair (consecutive same-class samples) followed by one
negative pair (same-class sample with a sample of class
`(d + randrange(1, 10)) % 10`). `rng t` models the t-th `random.randrange`
draw; `dflt` is the out-of-range default of list indexing (never reached when
every class has at least `n + 1` samples). -/
def pairList {α : Type} (dflt : α) (inputs : List α) (labels : List ℕ)
    (rng : ℕ → ℕ) : List (α × α) :=
  let n := pairsN labels
  (List.range 10).flatMap (fun d => (List.range n).flatMap (fun i =>
    [(inputs.getD ((digitIndices labels d).getD i 0) dflt,
      inputs.getD ((digitIndices labels d).getD (i + 1) 0) dflt),
     (inputs.getD ((digitIndices labels d).getD i 0) dflt,
      inputs.getD ((digitIndices labels ((d + rng (d * n + i)) % 10)).getD i 0)
        dflt)]))

/-- The labels list built by `create_pairs`: `labels += [1, 0]` per inner
iteration. -/
def labelList (labels : List ℕ) : List ℕ :=
  (List.range 10).flatMap (fun _ =>
    (List.range (pairsN labels)).flatMap (fun _ => [1, 0]))

/-- `create_pairs(inputs, labels)`: returns the pairs array and the
alternating 1/0 labels array. -/
def createPairs {α : Type} (dflt : α) (inputs : List α) (labels : List ℕ)
    (rng : ℕ → ℕ) : List (α × α) × List ℕ :=
  (pairList dflt inputs labels rng, labelList labels)

/-- Length of a flatMap whose blocks all have length `c`. -/
lemma length_flatMap_const {α β : Type} (F : α → List β) (c : ℕ) (l : List α)
    (hc : ∀ a ∈ l, (F a).length = c) : (l.flatMap F).length = l.length * c := by
  induction l with
  | nil => simp
  | cons x xs ih =>
    rw [List.flatMap_cons, List.length_append, hc x (List.mem_cons_self x xs),
      ih (fun a ha => hc a (List.mem_cons_of_mem x ha)), List.length_cons]
    ring

/-- Element `d * c + r` of a flatMap over `range a` with constant block
length `c` is element `r` of block `d`. -/
lemma getD_flatMap_range {β : Type} (F : ℕ → List β) (c : ℕ) :
    ∀ (a d r : ℕ), (∀ e, e < a → (F e).length = c) → d < a → r < c → ∀ (x : β),
      ((List.range a).flatMap F).getD (d * c + r) x = (F d).getD r x := by
  intro a
  induction a with
  | zero =>
    intro d r _ hd hr x
    exact absurd hd (Nat.not_lt_zero d)
  | succ a ih =>
    intro d r hc hd hr x
    rw [List.range_succ, List.flatMap_append]
    have hlen : ((List.range a).flatMap F).length = a * c := by
      rw [length_flatMap_const F c _ (fun e he => hc e (by
        have := List.mem_range.mp he
        omega))]
      simp
    rcases Nat.lt_or_ge d a with hda | hda
    · have hlt : d * c + r < ((List.range a).flatMap F).length := by
        rw [hlen]
        calc d * c + r < d * c + c := by omega
          _ = (d + 1) * c := by ring
          _ ≤ a * c := mul_le_mul_right' (by omega) c
      rw [List.getD_append _ _ _ _ hlt]
      exact ih d r (fun e he => hc e (by omega)) hda hr x
    · have hde : d = a := by omega
      subst hde
      have hge : ((List.range d).flatMap F).length ≤ d * c + r := by
        rw [hlen]
        omega
      rw [List.getD_append_right _ _ _ _ hge, hlen]
      have hsub : d * c + r - d * c = r := by omega
      have hone : ([d] : List ℕ).flatMap F = F d := by simp
      rw [hsub, hone]

/-- Element `d * (n * 2) + (i * 2 + r)` (with `r < 2`) of the double flatMap
building blocks `[G e t, H e t]` over `range a × range n`. -/
lemma double_flatMap_getD {β : Type} (G H : ℕ → ℕ → β) (n a d i r : ℕ)
    (hd : d < a) (hi : i < n) (hr : r < 2) (x : β) :
    ((List.range a).flatMap (fun e =>
        (List.range n).flatMap (fun t => [G e t, H e t]))).getD
      (d * (n * 2) + (i * 2 + r)) x = if r = 0 then G d i else H d i := by
  rw [getD_flatMap_range
    (fun e => (List.range n).flatMap (fun t => [G e t, H e t])) (n * 2) a d
    (i * 2 + r)
    (fun e _ => by
      rw [length_flatMap_const (fun t => [G e t, H e t]) 2 _ (fun _ _ => rfl)]
      simp)
    hd (by omega) x]
  rw [getD_flatMap_range (fun t => [G d t, H d t]) 2 n i r (fun _ _ => rfl)
    hi hr x]
  interval_cases r
  · rfl
  · rfl

/-- The initial accumulator bounds a min-fold from above. -/
lemma foldl_min_le_init (xs : List ℕ) : ∀ (x : ℕ), xs.foldl min x ≤ x := by
  induction xs with
  | nil =>
    intro x
    exact le_refl x
  | cons z zs ih =>
    intro x
    calc (z :: zs).foldl min x = zs.foldl min (min x z) := rfl
      _ ≤ min x z := ih (min x z)
      _ ≤ x := min_le_left x z

/-- Every member bounds a min-fold from above. -/
lemma foldl_min_le_mem (xs : List ℕ) : ∀ (x y : ℕ), y ∈ xs → xs.foldl min x ≤ y := by
  induction xs with
  | nil =>
    intro x y hy
    exact absurd hy (List.not_mem_nil y)
  | cons z zs ih =>
    intro x y hy
    rcases List.mem_cons.mp hy with h1 | h2
    · subst h1
      calc (y :: zs).foldl min x = zs.foldl min (min x y) := rfl
        _ ≤ min x y := foldl_min_le_init zs (min x y)
        _ ≤ y := min_le_right x y
    · exact ih (min x z) y h2

/-- `minList` is a lower bound of the list. -/
lemma minList_le {l : List ℕ} {y : ℕ} (hy : y ∈ l) : minList l ≤ y := by
  match l with
  | [] => exact absurd hy (List.not_mem_nil y)
  | x :: xs =>
    rcases List.mem_cons.mp hy with h1 | h2
    · subst h1
      exact foldl_min_le_init xs y
    · exact foldl_min_le_mem xs x y h2

/-- A common lower bound of accumulator and list bounds a min-fold from
below. -/
lemma le_foldl_min (c : ℕ) (xs : List ℕ) :
    ∀ (x : ℕ), c ≤ x → (∀ y ∈ xs, c ≤ y) → c ≤ xs.foldl min x := by
  induction xs with
  | nil =>
    intro x hx _
    exact hx
  | cons z zs ih =>
    intro x hx hall
    exact ih (min x z) (le_min hx (hall z (List.mem_cons_self z zs)))
      (fun y hy => hall y (List.mem_cons_of_mem z hy))

/-- A common lower bound of a nonempty list bounds its `minList` from
below. -/
lemma le_minList {c : ℕ} {l : List ℕ} (hne : l ≠ [])
    (hall : ∀ y ∈ l, c ≤ y) : c ≤ minList l := by
  match l with
  | [] => exact absurd rfl hne
  | x :: xs =>
    exact le_foldl_min c xs x (hall x (List.mem_cons_self x xs))
      (fun y hy => hall y (List.mem_cons_of_mem x hy))

/-- Entries of `digitIndices labels d` carry label `d`. -/
lemma digitIndices_label {labels : List ℕ} {d i : ℕ}
    (hi : i < (digitIndices labels d).length) :
    labels.getD ((digitIndices labels d).getD i 0) 0 = d := by
  have hmem : (digitIndices labels d).getD i 0 ∈ digitIndices labels d := by
    rw [List.getD_eq_getElem _ _ hi]
    exact List.getElem_mem hi
  exact of_decide_eq_true (List.mem_filter.mp hmem).2

/-- When every class has at least two samples, every class has at least
`n + 1` samples for `n = pairsN labels`, and `n ≥ 1`. -/
lemma pairsN_le_classes {labels : List ℕ}
    (hlab : ∀ d, d < 10 → 2 ≤ (digitIndices labels d).length) :
    (∀ d, d < 10 → pairsN labels + 1 ≤ (digitIndices labels d).length)
    ∧ 1 ≤ pairsN labels := by
  have hmin2 : 2 ≤ minList
      ((List.range 10).map (fun e => (digitIndices labels e).length)) := by
    apply le_minList
    · simp
    · intro y hy
      rcases List.mem_map.mp hy with ⟨e, he, rfl⟩
      exact hlab e (List.mem_range.mp he)
  constructor
  · intro d hd
    have hle : minList ((List.range 10).map (fun e => (digitIndices labels e).length))
        ≤ (digitIndices labels d).length :=
      minList_le (List.mem_map_of_mem _ (List.mem_range.mpr hd))
    have heq : pairsN labels
        = minList ((List.range 10).map (fun e => (digitIndices labels e).length)) - 1 :=
      rfl
    omega
  · have heq : pairsN labels
        = minList ((List.range 10).map (fun e => (digitIndices labels e).length)) - 1 :=
      rfl
    omega

/-- Total length of the double flatMap building two-element blocks. -/
lemma double_flatMap_length {β : Type} (G H : ℕ → ℕ → β) (n a : ℕ) :
    ((List.range a).flatMap (fun e =>
        (List.range n).flatMap (fun t => [G e t, H e t]))).length = 2 * n * a := by
  rw [length_flatMap_const
    (fun e => (List.range n).flatMap (fun t => [G e t, H e t])) (n * 2) _
    (fun e _ => by
      rw [length_flatMap_const (fun t => [G e t, H e t]) 2 _ (fun _ _ => rfl)]
      simp)]
  simp
  ring

/-- C10: on a dataset in which each of the 10 classes occurs at least twice
(and with the `randrange(1, 10)` draws in range), `create_pairs` returns a
pairs array and a labels array both of length `2 * n * 10` where `n` is one
less than the size of the smallest class; the labels alternate 1, 0; and for
each class `d` and each `i < n` the even-position pair is a positive pair
(both elements carry label `d`) while the odd-position pair is a negative
pair (labels `d` and `(d + inc) % 10 ≠ d`): n positive and n negative pairs
per class, so exactly half of all pairs are positive. -/
theorem C10_create_pairs_balanced {α : Type} (dflt : α) (inputs : List α)
    (labels : List ℕ) (rng : ℕ → ℕ)
    (hlab : ∀ d, d < 10 → 2 ≤ (digitIndices labels d).length)
    (hrng : ∀ t, 1 ≤ rng t ∧ rng t ≤ 9) :
    ((createPairs dflt inputs labels rng).1.length = 2 * pairsN labels * 10
      ∧ (createPairs dflt inputs labels rng).2.length = 2 * pairsN labels * 10)
    ∧ (∀ j, j < 2 * pairsN labels * 10 →
        (createPairs dflt inputs labels rng).2.getD j 7
          = if j % 2 = 0 then 1 else 0)
    ∧ (∀ d i, d < 10 → i < pairsN labels →
        ((createPairs dflt inputs labels rng).1.getD
            (2 * (d * pairsN labels + i)) (dflt, dflt)
          = (inputs.getD ((digitIndices labels d).getD i 0) dflt,
             inputs.getD ((digitIndices labels d).getD (i + 1) 0) dflt)
        ∧ labels.getD ((digitIndices labels d).getD i 0) 0 = d
        ∧ labels.getD ((digitIndices labels d).getD (i + 1) 0) 0 = d)
        ∧ ((createPairs dflt inputs labels rng).1.getD
            (2 * (d * pairsN labels + i) + 1) (dflt, dflt)
          = (inputs.getD ((digitIndices labels d).getD i 0) dflt,
             inputs.getD ((digitIndices labels
                ((d + rng (d * pairsN labels + i)) % 10)).getD i 0) dflt)
        ∧ labels.getD ((digitIndices labels
            ((d + rng (d * pairsN labels + i)) % 10)).getD i 0) 0
            = (d + rng (d * pairsN labels + i)) % 10
        ∧ (d + rng (d * pairsN labels + i)) % 10 ≠ d)) := by
  obtain ⟨hsz, hn1⟩ := pairsN_le_classes hlab
  refine ⟨⟨double_flatMap_length _ _ _ _, double_flatMap_length _ _ _ _⟩,
    ?_, ?_⟩
  · intro j hj
    have h2n : 0 < pairsN labels * 2 := by omega
    have hdlt : j / (pairsN labels * 2) < 10 := by
      rw [Nat.div_lt_iff_lt_mul h2n]
      omega
    have hrest : j % (pairsN labels * 2) < pairsN labels * 2 := Nat.mod_lt j h2n
    have hilt : j % (pairsN labels * 2) / 2 < pairsN labels := by
      rw [Nat.div_lt_iff_lt_mul (by omega : (0:ℕ) < 2)]
      omega
    have hco : (2 : ℕ) ∣ (pairsN labels * 2) := ⟨pairsN labels, by ring⟩
    have hsplit : j = (j / (pairsN labels * 2)) * (pairsN labels * 2)
        + (j % (pairsN labels * 2) / 2 * 2 + j % 2) := by
      have h1 := Nat.div_add_mod j (pairsN labels * 2)
      have h2 := Nat.div_add_mod (j % (pairsN labels * 2)) 2
      have h3 : j % (pairsN labels * 2) % 2 = j % 2 := Nat.mod_mod_of_dvd j hco
      calc j = (pairsN labels * 2) * (j / (pairsN labels * 2))
            + j % (pairsN labels * 2) := h1.symm
        _ = (pairsN labels * 2) * (j / (pairsN labels * 2))
            + (2 * (j % (pairsN labels * 2) / 2)
              + j % (pairsN labels * 2) % 2) := by rw [h2]
        _ = (j / (pairsN labels * 2)) * (pairsN labels * 2)
            + (j % (pairsN labels * 2) / 2 * 2 + j % 2) := by
            rw [h3]
            ring
    conv_lhs => rw [hsplit]
    exact double_flatMap_getD (fun _ _ => (1 : ℕ)) (fun _ _ => (0 : ℕ))
      (pairsN labels) 10 (j / (pairsN labels * 2))
      (j % (pairsN labels * 2) / 2) (j % 2) hdlt hilt
      (Nat.mod_lt j (by omega)) 7
  · intro d i hd hi
    have hblock := fun (r : ℕ) (hr : r < 2) => double_flatMap_getD
      (fun e t => (inputs.getD ((digitIndices labels e).getD t 0) dflt,
        inputs.getD ((digitIndices labels e).getD (t + 1) 0) dflt))
      (fun e t => (inputs.getD ((digitIndices labels e).getD t 0) dflt,
        inputs.getD ((digitIndices labels
          ((e + rng (e * pairsN labels + t)) % 10)).getD t 0) dflt))
      (pairsN labels) 10 d i r hd hi hr (dflt, dflt)
    have hdn : (d + rng (d * pairsN labels + i)) % 10 < 10 :=
      Nat.mod_lt _ (by omega)
    refine ⟨⟨?_, ?_, ?_⟩, ?_, ?_, ?_⟩
    · rw [show 2 * (d * pairsN labels + i)
          = d * (pairsN labels * 2) + (i * 2 + 0) from by ring]
      exact hblock 0 (by omega)
    · exact digitIndices_label (by have := hsz d hd; omega)
    · exact digitIndices_label (by have := hsz d hd; omega)
    · rw [show 2 * (d * pairsN labels + i) + 1
          = d * (pairsN labels * 2) + (i * 2 + 1) from by ring]
      exact hblock 1 (by omega)
    · exact digitIndices_label (by have := hsz _ hdn; omega)
    · have hr := hrng (d * pairsN labels + i)
      omega

/-- Concrete label array for the C10 witness: every class 0..9 occurs exactly
twice. -/
def labels0 : List ℕ := List.range 10 ++ List.range 10

/-- Concrete inputs for the C10 witness (the label values themselves). -/
def inputs0 : List ℕ := List.range 10 ++ List.range 10

/-- Concrete `randrange(1, 10)` stream for the C10 witness: always 1. -/
def rng0 : ℕ → ℕ := fun _ => 1

/-- C10 witness: on the concrete 20-sample dataset, class 0 has two samples,
both returned arrays have length `2 * n * 10` and the labels array starts
with 1. -/
theorem C10_create_pairs_balanced_witness :
    2 ≤ (digitIndices labels0 0).length
    ∧ (createPairs 0 inputs0 labels0 rng0).1.length = 2 * pairsN labels0 * 10
    ∧ (createPairs 0 inputs0 labels0 rng0).2.length = 2 * pairsN labels0 * 10
    ∧ (createPairs 0 inputs0 labels0 rng0).2.getD 0 7 = 1 := by
  have h := C10_create_pairs_balanced (0 : ℕ) inputs0 labels0 rng0
    (by decide) (fun t => ⟨le_refl 1, by norm_num [rng0]⟩)
  refine ⟨by decide, h.1.1, h.1.2, ?_⟩
  have h2 := h.2.1 0 (by decide)
  simpa using h2
